import Mathlib

/-!
Verification development for the entity dependency graph and relocation
engine of `sentry/backup/dependencies.py`: the normalized model name
wrapper, the primary key map, the dangling classifier
(`resolve_dangling` inside `dependencies()`), and the topological sorter
(`sorted_dependencies()`).  Models are identified by their normalized
name string; the graph is the ordered association list of
`ModelRelations` values, mirroring the insertion-ordered Python dict.
-/

namespace SentryDeps

/-- A Python value as seen by `NormalizedModelName.__eq__` and
`__lt__`: `None`, another `NormalizedModelName` (carrying its
already-lowercased inner string), or some unrelated object. -/
inductive PyVal where
  | none : PyVal
  | nmn (s : String) : PyVal
  | other (tag : String) : PyVal
deriving DecidableEq

def typeErrMsg : String :=
  "TypeError: NormalizedModelName can only be compared with other NormalizedModelName"

/-- `NormalizedModelName.__eq__`: `None` compares unequal without
raising; any other non-`NormalizedModelName` operand raises
`TypeError`; two names compare by their lowercased strings. -/
def nmnEq (self : String) (other : PyVal) : Except String Bool :=
  match other with
  | .none => .ok false
  | .nmn t => .ok (self == t)
  | .other _ => .error typeErrMsg

/-- `NormalizedModelName.__lt__`: raises `TypeError` for every operand
that is not a `NormalizedModelName` (including `None`); otherwise
compares the inner strings lexicographically by code point. -/
def nmnLt (self : String) (other : PyVal) : Except String Bool :=
  match other with
  | .nmn t => .ok (decide (self.data < t.data))
  | .none => .error typeErrMsg
  | .other _ => .error typeErrMsg

/-- `ImportKind` from the source: how an imported record came to exist. -/
inductive ImportKind where
  | Inserted : ImportKind
  | Existing : ImportKind
  | Overwrite : ImportKind
deriving DecidableEq

/-- `PrimaryKeyMap.mapping`, flattened: the nested
`dict[str, dict[int, (int, ImportKind)]]` is modelled as an association
list keyed by the (model name, old pk) pair; the newest binding for a
key shadows older ones, exactly as dict assignment overwrites. -/
structure PrimaryKeyMap where
  mapping : List ((String × Int) × (Int × ImportKind))
deriving DecidableEq

/-- `PrimaryKeyMap.insert`: create (or overwrite) the OLD_PK -> NEW_PK
mapping for the given model. -/
def PrimaryKeyMap.insert (m : PrimaryKeyMap) (model_name : String) (old new : Int)
    (kind : ImportKind) : PrimaryKeyMap :=
  ⟨((model_name, old), (new, kind)) :: m.mapping⟩

/-- `PrimaryKeyMap.get_pk`: the new primary key for an old one, or
`none` when the model or the old key was never mapped. -/
def PrimaryKeyMap.get_pk (m : PrimaryKeyMap) (model_name : String) (old : Int) :
    Option Int :=
  (m.mapping.find? (fun e => e.1 == (model_name, old))).map (fun e => e.2.1)

/-- `PrimaryKeyMap.get_kind`: the `ImportKind` recorded for an old key,
or `none` when it was never mapped. -/
def PrimaryKeyMap.get_kind (m : PrimaryKeyMap) (model_name : String) (old : Int) :
    Option ImportKind :=
  (m.mapping.find? (fun e => e.1 == (model_name, old))).map (fun e => e.2.2)

/-- `ForeignFieldKind` from the source. -/
inductive ForeignFieldKind where
  | FlexibleForeignKey : ForeignFieldKind
  | HybridCloudForeignKey : ForeignFieldKind
  | OneToOneCascadeDeletes : ForeignFieldKind
  | DefaultForeignKey : ForeignFieldKind
  | DefaultOneToOneField : ForeignFieldKind
  | ImplicitForeignKey : ForeignFieldKind
deriving DecidableEq

/-- `ForeignField`: a dependency on another model.  The referenced model
is identified by its normalized name. -/
structure ForeignField where
  model : String
  kind : ForeignFieldKind
  nullable : Bool
deriving DecidableEq

/-- `ModelRelations`, restricted to the fields the dangling classifier
and topological sorter read: the memoized `dangling` flag, the
`foreign_keys` values (their dict keys — the field names — are never
consulted by either algorithm), and the model itself (its normalized
name, which is also the node's key in the dependency dict). -/
structure ModelRelations where
  dangling : Option Bool
  foreign_keys : List ForeignField
  model : String
deriving DecidableEq

/-- The dependency mapping `dict[NormalizedModelName, ModelRelations]`,
as the insertion-ordered list of its values; each value's `model` field
equals its dict key. -/
abbrev Graph := List ModelRelations

/-- Dict lookup `model_dependencies_dict[name]`. -/
def lookupModel (g : Graph) (name : String) : Option ModelRelations :=
  g.find? (fun mr => mr.model == name)

/-- Field assignment `model_dependencies_dict[name].dangling = v`. -/
def setDangling (g : Graph) (name : String) (v : Option Bool) : Graph :=
  g.map (fun mr => if mr.model = name then { mr with dangling := v } else mr)

/-- Python `s.endswith(t)`, on code points. -/
def pyEndsWith (s t : String) : Bool := t.data.isSuffixOf s.data

/-- Python `s[:-n]`: drop the last `n` code points. -/
def pyDropLast (s : String) (n : Nat) : String := ⟨s.data.take (s.data.length - n)⟩

/-- Python `s.replace("_", "")`: delete every underscore. -/
def pyStripUnderscores (s : String) : String := ⟨s.data.filter (fun c => c != '_')⟩

/-- Python `s.lower()` as performed by `NormalizedModelName.__init__`. -/
def pyLower (s : String) : String := ⟨s.data.map Char.toLower⟩

/-- The numeric-suffix heuristic of the graph builder, for one
bounded-integer field: returns the normalized name of the model an
implicit foreign key edge is created to, if any.  `known` is the key
set of `models_from_names`. -/
def implicitForeignKeyCandidate (known : List String) (fieldName : String) :
    Option String :=
  if pyEndsWith fieldName "_id" ∧ fieldName ≠ "actor_id" then
    if pyLower ("sentry." ++ pyStripUnderscores (pyDropLast fieldName 3)) ∈ known then
      some (pyLower ("sentry." ++ pyStripUnderscores (pyDropLast fieldName 3)))
    else none
  else none

def fuelErrMsg : String := "fuel exhausted"

def cycleErrMsg (name : String) : String :=
  "Circular dependency: " ++ name ++ " cannot transitively reference itself"

def keyErrMsg (name : String) : String := "KeyError: " ++ name

/-- `return model_relations.dangling` at the end of `resolve_dangling`:
read the node's (by then always set) flag back out of the graph. -/
def readBack (name : String) (g : Graph) : Except String (Bool × Graph) :=
  match lookupModel g name with
  | some mr =>
    match mr.dangling with
    | some b => .ok (b, g)
    | none => .error "internal: dangling unset"
  | none => .error "internal: model vanished"

/-- The `for ff in model_relations.foreign_keys.values()` loop of
`resolve_dangling`: skip nullable edges; recursively resolve the target
of each non-nullable edge via `resolve`; on the first non-dangling
target set the node's flag to `False` and break; finally return the
node's flag. -/
def loopFks (resolve : String → Graph → Except String (Bool × Graph)) (name : String) :
    List ForeignField → Graph → Except String (Bool × Graph)
  | [], g => readBack name g
  | ff :: rest, g =>
    if ff.nullable then loopFks resolve name rest g
    else
      match resolve ff.model g with
      | .error e => .error e
      | .ok (b, g') =>
        if b then loopFks resolve name rest g'
        else readBack name (setDangling g' name (some false))

/-- `resolve_dangling(seen, model_name)`: memoized, cycle-detecting
resolution of the dangling flag.  `fuel` only bounds recursion depth;
the Python recursion is bounded by the growth of `seen`. -/
def resolveDangling : Nat → List String → String → Graph → Except String (Bool × Graph)
  | 0, _, _, _ => .error fuelErrMsg
  | fuel + 1, seen, name, g =>
    match lookupModel g name with
    | none => .error (keyErrMsg name)
    | some mr =>
      if name ∈ seen then .error (cycleErrMsg name)
      else
        match mr.dangling with
        | some b => .ok (b, g)
        | none =>
          loopFks (resolveDangling fuel (name :: seen)) name mr.foreign_keys
            (setDangling g name (some true))

/-- The seeding loop of `dependencies()`: mark every relocation root
model as non-dangling (dict indexing raises `KeyError` on a missing
root). -/
def seedRoots : List String → Graph → Except String Graph
  | [], g => .ok g
  | r :: rest, g =>
    match lookupModel g r with
    | none => .error (keyErrMsg r)
    | some _ => seedRoots rest (setDangling g r (some false))

/-- The driver loop of `dependencies()`: resolve every non-root model
with a fresh empty `seen` set. -/
def resolveAll (fuel : Nat) (roots : List String) :
    List String → Graph → Except String Graph
  | [], g => .ok g
  | n :: rest, g =>
    if n ∈ roots then resolveAll fuel roots rest g
    else
      match resolveDangling fuel [] n g with
      | .error e => .error e
      | .ok (_, g') => resolveAll fuel roots rest g'

/-- A recursion-depth budget ample for any run over `g`. -/
def graphFuel (g : Graph) : Nat :=
  (g.foldl (fun a mr => a + mr.foreign_keys.length + 2) 1) * (g.length + 2)

/-- The dangling-classification phase of `dependencies()`: seed the
roots non-dangling, then resolve every other model. -/
def runDangling (roots : List String) (g : Graph) : Except String Graph :=
  match seedRoots roots g with
  | .error e => .error e
  | .ok g1 => resolveAll (graphFuel g1) roots (g1.map (fun mr => mr.model)) g1

/-- The list of root model names collected from `RelocationRootModels`
across every relocation scope. -/
def relocationRootModels : List String :=
  ["sentry.user", "sentry.organization", "sentry.controloption", "sentry.option",
   "sentry.relay", "sentry.relayusage", "sentry.userrole", "sentry.apiapplication",
   "sentry.integration", "sentry.sentryapp"]

/-- The promotion test of `sorted_dependencies()`: every dependency
target is either already in the output or outside the working universe
altogether. -/
def topoReady (ms : List String) (out : List String) (mr : ModelRelations) : Bool :=
  mr.foreign_keys.all (fun ff => decide (ff.model ∉ ms ∨ ff.model ∈ out))

/-- One full inner pass of `sorted_dependencies()`: pop models off the
working list one at a time; promote the ready ones to the end of the
output, collect the rest into `skipped` in processing order.  The input
list here is given in processing (pop) order. -/
def topoPass (ms : List String) :
    List ModelRelations → List String → List ModelRelations → Bool →
      List String × List ModelRelations × Bool
  | [], out, skipped, changed => (out, skipped, changed)
  | md :: rest, out, skipped, changed =>
    if topoReady ms out md then topoPass ms rest (out ++ [md.model]) skipped true
    else topoPass ms rest out (skipped ++ [md]) changed

def apostrophe : String := String.singleton (Char.ofNat 39)

/-- The cycle error raised by `sorted_dependencies()`, parameterized by
the already-formatted model names. -/
def topoErrMsg (names : List String) : String :=
  "Can" ++ apostrophe ++ "t resolve dependencies for " ++
    String.intercalate ", " names ++ " in serialized app list."

/-- `sorted(skipped, key=lambda mr: get_model_name(mr.model))`: sort by
normalized model name, ascending code-point lexicographic order. -/
def sortSkipped (skipped : List ModelRelations) : List ModelRelations :=
  skipped.insertionSort (fun a b => a.model.data ≤ b.model.data)

def topoErr (skipped : List ModelRelations) : String :=
  topoErrMsg ((sortSkipped skipped).map (fun mr => mr.model))

instance : IsTotal ModelRelations (fun a b => a.model.data ≤ b.model.data) :=
  ⟨fun a b => le_total a.model.data b.model.data⟩

instance : IsTrans ModelRelations (fun a b => a.model.data ≤ b.model.data) :=
  ⟨fun _ _ _ h1 h2 => le_trans h1 h2⟩

/-- The outer `while` loop of `sorted_dependencies()`: run passes until
the working list is empty, failing when a pass promotes nothing.
`working` is held in Python-list order; a pass pops from its tail, so
the pass processes `working.reverse`. -/
def sortLoop (ms : List String) : Nat → List ModelRelations → List String →
    Except String (List String)
  | 0, _, _ => .error fuelErrMsg
  | _ + 1, [], out => .ok out
  | fuel + 1, md :: wrest, out =>
    let t := topoPass ms (md :: wrest).reverse out [] false
    if t.2.2 then sortLoop ms fuel t.2.1 t.1
    else .error (topoErr t.2.1)

/-- `sorted_dependencies()`: reverse the dependency dict's value list,
compute the model universe, and run the fixed-point promotion loop.
One unit of fuel per pass: `g.length + 1` passes always suffice because
each successful pass strictly shrinks the working list. -/
def sortedDependencies (g : Graph) : Except String (List String) :=
  sortLoop (g.map (fun mr => mr.model)) (g.length + 1) g.reverse []

/-! Concrete schemas used to instantiate the theorems below. -/

/-- Two independent models whose registration order is the reverse of
their name order. -/
def exGraphBA : Graph := [⟨none, [], "sentry.b"⟩, ⟨none, [], "sentry.a"⟩]

/-- A team with a non-nullable foreign key to an organization, the team
registered first. -/
def exGraphTeamOrg : Graph :=
  [⟨none, [⟨"sentry.organization", .FlexibleForeignKey, false⟩], "sentry.team"⟩,
   ⟨none, [], "sentry.organization"⟩]

/-- A single model carrying a retained non-nullable self-edge. -/
def exGraphSelf : Graph :=
  [⟨none, [⟨"sentry.x", .ImplicitForeignKey, false⟩], "sentry.x"⟩]

/-- The same single model without the self-edge. -/
def exGraphNoSelf : Graph := [⟨none, [], "sentry.x"⟩]

/-- The synthetic schema X -> Y -> X over non-nullable edges, neither a
root. -/
def exGraphXY : Graph :=
  [⟨none, [⟨"sentry.y", .FlexibleForeignKey, false⟩], "sentry.x"⟩,
   ⟨none, [⟨"sentry.x", .FlexibleForeignKey, false⟩], "sentry.y"⟩]

/-- The synthetic schema P -> Q -> P for the topological sorter. -/
def exGraphPQ : Graph :=
  [⟨none, [⟨"sentry.q", .FlexibleForeignKey, false⟩], "sentry.p"⟩,
   ⟨none, [⟨"sentry.p", .FlexibleForeignKey, false⟩], "sentry.q"⟩]

/-- An organization root together with a webhook model whose only edge
is nullable. -/
def exGraphWebhook : Graph :=
  [⟨none, [], "sentry.organization"⟩,
   ⟨none, [⟨"sentry.project", .FlexibleForeignKey, true⟩], "sentry.webhook"⟩]

/-- A registry holding exactly the relocation root models. -/
def exGraphRoots : Graph := relocationRootModels.map (fun n => ⟨none, [], n⟩)

/-- `exGraphRoots` after the seeding loop marked every root
non-dangling. -/
def exGraphRootsSeeded : Graph :=
  relocationRootModels.map (fun n => ⟨some false, [], n⟩)

end SentryDeps

namespace SentryDeps

/-! Basic facts about graph lookup and the dangling-flag update. -/

theorem lookupModel_model {g : Graph} {m : String} {mr : ModelRelations}
    (h : lookupModel g m = some mr) : mr.model = m := by
  have := List.find?_some h
  simpa using this

theorem mem_of_lookupModel {g : Graph} {m : String} {mr : ModelRelations}
    (h : lookupModel g m = some mr) : mr ∈ g :=
  List.mem_of_find?_eq_some h

theorem lookupModel_setDangling (g : Graph) (n m : String) (v : Option Bool) :
    lookupModel (setDangling g n v) m =
      (lookupModel g m).map
        (fun mr => if mr.model = n then { mr with dangling := v } else mr) := by
  induction g with
  | nil => rfl
  | cons a l ih =>
    have hpred :
        ((if a.model = n then { a with dangling := v } else a) : ModelRelations).model
          = a.model := by
      split <;> rfl
    unfold lookupModel setDangling at ih ⊢
    simp only [List.map_cons]
    by_cases h2 : a.model = m
    · rw [List.find?_cons_of_pos _ (by rw [hpred]; simp [h2]),
        List.find?_cons_of_pos _ (by simp [h2])]
      rfl
    · rw [List.find?_cons_of_neg _ (by simp [hpred, h2]),
        List.find?_cons_of_neg _ (by simp [h2])]
      exact ih

theorem lookupModel_setDangling_other {g : Graph} {n m : String} (v : Option Bool)
    (h : m ≠ n) : lookupModel (setDangling g n v) m = lookupModel g m := by
  rw [lookupModel_setDangling]
  cases hl : lookupModel g m with
  | none => rfl
  | some mr =>
    have hm := lookupModel_model hl
    simp [hm, h]

theorem lookupModel_setDangling_self {g : Graph} {n : String} {mr : ModelRelations}
    (v : Option Bool) (h : lookupModel g n = some mr) :
    lookupModel (setDangling g n v) n = some { mr with dangling := v } := by
  rw [lookupModel_setDangling, h]
  simp [lookupModel_model h]

theorem setDangling_models (g : Graph) (n : String) (v : Option Bool) :
    (setDangling g n v).map (fun mr => mr.model) = g.map (fun mr => mr.model) := by
  induction g with
  | nil => rfl
  | cons a l ih =>
    by_cases h : a.model = n <;> simp [setDangling, h] at ih ⊢ <;>
      simpa [setDangling] using ih

theorem readBack_ok_graph {name : String} {g g' : Graph} {b : Bool}
    (h : readBack name g = .ok (b, g')) : g' = g := by
  unfold readBack at h
  split at h
  · split at h
    · cases h
      rfl
    · cases h
  · cases h

theorem readBack_eval {name : String} {g : Graph} {mr : ModelRelations} {b : Bool}
    (hlk : lookupModel g name = some mr) (hd : mr.dangling = some b) :
    readBack name g = .ok (b, g) := by
  unfold readBack
  rw [hlk]
  dsimp only
  rw [hd]

/-- Nodes whose dangling flag is already memoized are never touched
again by the classifier. -/
def Pres (g g' : Graph) : Prop :=
  ∀ n mr, lookupModel g n = some mr → mr.dangling ≠ none → lookupModel g' n = some mr

theorem pres_rfl (g : Graph) : Pres g g := fun _ _ h _ => h

theorem pres_comp {g1 g2 g3 : Graph} (h1 : Pres g1 g2) (h2 : Pres g2 g3) :
    Pres g1 g3 :=
  fun n mr hl hs => h2 n mr (h1 n mr hl hs) hs

theorem loopFks_pres
    (resolve : String → Graph → Except String (Bool × Graph)) (name : String)
    (hres : ∀ m g b g', resolve m g = .ok (b, g') → Pres g g') :
    ∀ l g b g', loopFks resolve name l g = .ok (b, g') →
      ∀ n mr, n ≠ name → lookupModel g n = some mr → mr.dangling ≠ none →
        lookupModel g' n = some mr := by
  intro l
  induction l with
  | nil =>
    intro g b g' h n mr _ hl hs
    rw [readBack_ok_graph h]
    exact hl
  | cons ff rest ih =>
    intro g b g' h n mr hn hl hs
    unfold loopFks at h
    split at h
    · exact ih g b g' h n mr hn hl hs
    · split at h
      · cases h
      · next bb g1 heq =>
        have hp : lookupModel g1 n = some mr := hres _ _ _ _ heq n mr hl hs
        split at h
        · exact ih g1 b g' h n mr hn hp hs
        · rw [readBack_ok_graph h]
          rw [lookupModel_setDangling_other _ hn]
          exact hp

theorem resolveDangling_pres :
    ∀ fuel seen m g b g', resolveDangling fuel seen m g = .ok (b, g') → Pres g g' := by
  intro fuel
  induction fuel with
  | zero => intro seen m g b g' h; cases h
  | succ fuel ih =>
    intro seen m g b g' h
    unfold resolveDangling at h
    split at h
    · cases h
    · next mr hlk =>
      split at h
      · cases h
      · split at h
        · cases h
          exact pres_rfl _
        · next hd =>
          intro n mr' hl hs
          by_cases hn : n = m
          · subst hn
            rw [hl] at hlk
            cases hlk
            rw [hd] at hs
            exact absurd rfl hs
          · have h1 : lookupModel (setDangling g m (some true)) n = some mr' := by
              rw [lookupModel_setDangling_other _ hn]
              exact hl
            exact loopFks_pres _ _ (fun m' g0 b0 g0' hh => ih (m :: seen) m' g0 b0 g0' hh)
              _ _ _ _ h n mr' hn h1 hs

theorem resolveAll_pres (fuel : Nat) (roots : List String) :
    ∀ names g g', resolveAll fuel roots names g = .ok g' → Pres g g' := by
  intro names
  induction names with
  | nil =>
    intro g g' h
    cases h
    exact pres_rfl _
  | cons nm rest ih =>
    intro g g' h
    unfold resolveAll at h
    split at h
    · exact ih g g' h
    · split at h
      · cases h
      · next bb g1 heq =>
        exact pres_comp (resolveDangling_pres _ _ _ _ _ _ heq) (ih g1 g' h)

/-! Seeding lemmas. -/

theorem seedRoots_keeps_false {r : String} :
    ∀ (roots : List String) (g g1 : Graph) (mr : ModelRelations),
      seedRoots roots g = .ok g1 → lookupModel g r = some mr →
      mr.dangling = some false →
      ∃ mr', lookupModel g1 r = some mr' ∧ mr'.dangling = some false := by
  intro roots
  induction roots with
  | nil =>
    intro g g1 mr h hl hd
    cases h
    exact ⟨mr, hl, hd⟩
  | cons rr rest ih =>
    intro g g1 mr h hl hd
    unfold seedRoots at h
    split at h
    · cases h
    · by_cases hrr : mr.model = rr
      · refine ih _ _ { mr with dangling := some false } h ?_ rfl
        rw [lookupModel_setDangling, hl]
        simp [hrr]
      · refine ih _ _ mr h ?_ hd
        have hm := lookupModel_model hl
        rw [lookupModel_setDangling_other _ (by rw [← hm]; exact hrr)]
        exact hl

theorem seedRoots_root_false {r : String} :
    ∀ (roots : List String) (g g1 : Graph), seedRoots roots g = .ok g1 → r ∈ roots →
      ∃ mr', lookupModel g1 r = some mr' ∧ mr'.dangling = some false := by
  intro roots
  induction roots with
  | nil =>
    intro g g1 h hr
    cases hr
  | cons rr rest ih =>
    intro g g1 h hr
    unfold seedRoots at h
    split at h
    · cases h
    · next mr0 hlk =>
      rcases List.mem_cons.mp hr with hr | hr
      · subst hr
        exact seedRoots_keeps_false rest _ _ { mr0 with dangling := some false } h
          (lookupModel_setDangling_self _ hlk) rfl
      · exact ih _ _ h hr

theorem seedRoots_other {n : String} :
    ∀ (roots : List String) (g g1 : Graph), seedRoots roots g = .ok g1 → n ∉ roots →
      lookupModel g1 n = lookupModel g n := by
  intro roots
  induction roots with
  | nil =>
    intro g g1 h _
    cases h
    rfl
  | cons rr rest ih =>
    intro g g1 h hn
    unfold seedRoots at h
    split at h
    · cases h
    · rw [ih _ _ h (fun hmem => hn (List.mem_cons_of_mem rr hmem)),
        lookupModel_setDangling_other _
          (fun he => hn (by rw [he]; exact List.mem_cons_self rr rest))]

theorem seedRoots_models :
    ∀ (roots : List String) (g g1 : Graph), seedRoots roots g = .ok g1 →
      g1.map (fun mr => mr.model) = g.map (fun mr => mr.model) := by
  intro roots
  induction roots with
  | nil =>
    intro g g1 h
    cases h
    rfl
  | cons rr rest ih =>
    intro g g1 h
    unfold seedRoots at h
    split at h
    · cases h
    · rw [ih _ _ h, setDangling_models]

/-- C10: comparing a `NormalizedModelName` for equality against `None`
is total and returns `false`, while comparing it (for equality or
order) against any non-`None` value that is not a
`NormalizedModelName` raises a `TypeError`. -/
theorem c10_eq_none_total (s : String) (v : PyVal) (hv1 : v ≠ PyVal.none)
    (hv2 : ∀ t, v ≠ PyVal.nmn t) :
    nmnEq s PyVal.none = .ok false ∧
      (∃ e, nmnEq s v = .error e) ∧ (∃ e, nmnLt s v = .error e) := by
  refine ⟨rfl, ?_, ?_⟩ <;> cases v <;> simp_all [nmnEq, nmnLt]

theorem c10_eq_none_total_witness :
    (PyVal.other "int" ≠ PyVal.none) ∧
      (nmnEq "sentry.user" PyVal.none = .ok false ∧
        (∃ e, nmnEq "sentry.user" (PyVal.other "int") = .error e) ∧
        (∃ e, nmnLt "sentry.user" (PyVal.other "int") = .error e)) :=
  ⟨by decide, c10_eq_none_total "sentry.user" (PyVal.other "int") (by decide)
    (fun t h => by cases h)⟩

/-- C5: `PrimaryKeyMap` insertion is last-writer-wins — inserting
`(T, 5, 105, Inserted)` then `(T, 5, 999, Overwrite)` leaves
`get_pk T 5 = 999` and `get_kind T 5 = Overwrite` — and a key never
inserted (here old key 6) still looks up to `none`. -/
theorem c5_pk_map_last_writer_wins (m : PrimaryKeyMap) (T : String)
    (hfresh : m.get_pk T 6 = none) :
    ((m.insert T 5 105 .Inserted).insert T 5 999 .Overwrite).get_pk T 5 = some 999 ∧
      ((m.insert T 5 105 .Inserted).insert T 5 999 .Overwrite).get_kind T 5 =
        some .Overwrite ∧
      ((m.insert T 5 105 .Inserted).insert T 5 999 .Overwrite).get_pk T 6 = none := by
  have h55 : (((T, (5 : Int))) == ((T, (5 : Int)))) = true := by simp
  have h56 : (((T, (5 : Int))) == ((T, (6 : Int)))) = false := by simp
  refine ⟨?_, ?_, ?_⟩
  · simp [PrimaryKeyMap.get_pk, PrimaryKeyMap.insert, List.find?, h55]
  · simp [PrimaryKeyMap.get_kind, PrimaryKeyMap.insert, List.find?, h55]
  · unfold PrimaryKeyMap.get_pk at hfresh ⊢
    simp only [PrimaryKeyMap.insert, List.find?, h56]
    exact hfresh

theorem c5_pk_map_last_writer_wins_witness :
    ((⟨[]⟩ : PrimaryKeyMap).get_pk "sentry.project" 6 = none) ∧
      (((⟨[]⟩ : PrimaryKeyMap).insert "sentry.project" 5 105 .Inserted).insert
          "sentry.project" 5 999 .Overwrite).get_pk "sentry.project" 5 = some 999 ∧
      (((⟨[]⟩ : PrimaryKeyMap).insert "sentry.project" 5 105 .Inserted).insert
          "sentry.project" 5 999 .Overwrite).get_kind "sentry.project" 5 =
        some .Overwrite ∧
      (((⟨[]⟩ : PrimaryKeyMap).insert "sentry.project" 5 105 .Inserted).insert
          "sentry.project" 5 999 .Overwrite).get_pk "sentry.project" 6 = none :=
  ⟨rfl, c5_pk_map_last_writer_wins ⟨[]⟩ "sentry.project" rfl⟩

/-- C9: the numeric-suffix heuristic creates an implicit foreign key
edge exactly when the field name ends in an id-suffix, is not the
denied field named `actor_id`, and the derived candidate name is a
known registered model; in particular no implicit edge is ever created
from a field named `actor_id`. -/
theorem c9_implicit_fk_heuristic (known : List String) (f : String) :
    (implicitForeignKeyCandidate known f ≠ none ↔
      (pyEndsWith f "_id" = true ∧ f ≠ "actor_id" ∧
        pyLower ("sentry." ++ pyStripUnderscores (pyDropLast f 3)) ∈ known)) ∧
      implicitForeignKeyCandidate known "actor_id" = none := by
  constructor
  · unfold implicitForeignKeyCandidate
    split_ifs with h1 h2 <;> simp_all
    tauto
  · unfold implicitForeignKeyCandidate
    rw [if_neg]
    rintro ⟨-, h⟩
    exact h rfl

/-- C3: whenever `resolve_dangling` reaches a model that is already in
the in-progress `seen` set, it raises the circular-dependency error
instead of returning a classification. -/
theorem c3_cycle_error (fuel : Nat) (seen : List String) (name : String) (g : Graph)
    (mr : ModelRelations) (hlk : lookupModel g name = some mr) (hseen : name ∈ seen) :
    resolveDangling (fuel + 1) seen name g = .error (cycleErrMsg name) := by
  unfold resolveDangling
  rw [hlk]
  simp [hseen]

theorem c3_cycle_error_witness :
    (lookupModel exGraphXY "sentry.x" =
        some ⟨none, [⟨"sentry.y", .FlexibleForeignKey, false⟩], "sentry.x"⟩) ∧
      ("sentry.x" ∈ ["sentry.y", "sentry.x"]) ∧
      resolveDangling 5 ["sentry.y", "sentry.x"] "sentry.x" exGraphXY =
        .error (cycleErrMsg "sentry.x") :=
  ⟨rfl, by decide,
    c3_cycle_error 4 ["sentry.y", "sentry.x"] "sentry.x" exGraphXY
      ⟨none, [⟨"sentry.y", .FlexibleForeignKey, false⟩], "sentry.x"⟩ rfl (by decide)⟩

/-- C2: every declared relocation root is seeded non-dangling by the
seeding loop before any recursive resolution starts, and is still
classified non-dangling after the whole dangling phase succeeds. -/
theorem c2_roots_non_dangling (roots : List String) (g : Graph) (r : String)
    (g1 g' : Graph) (hr : r ∈ roots) (hseed : seedRoots roots g = .ok g1)
    (hrun : runDangling roots g = .ok g') :
    (∃ mr, lookupModel g1 r = some mr ∧ mr.dangling = some false) ∧
      (∃ mr, lookupModel g' r = some mr ∧ mr.dangling = some false) := by
  have h1 := seedRoots_root_false roots g g1 hseed hr
  refine ⟨h1, ?_⟩
  unfold runDangling at hrun
  rw [hseed] at hrun
  dsimp only at hrun
  rcases h1 with ⟨mr, hl, hd⟩
  have hp := resolveAll_pres _ roots _ _ _ hrun
  exact ⟨mr, hp r mr hl (by rw [hd]; simp), hd⟩

theorem c2_roots_non_dangling_witness :
    ("sentry.user" ∈ relocationRootModels) ∧
      (seedRoots relocationRootModels exGraphRoots = .ok exGraphRootsSeeded) ∧
      (runDangling relocationRootModels exGraphRoots = .ok exGraphRootsSeeded) ∧
      ((∃ mr, lookupModel exGraphRootsSeeded "sentry.user" = some mr ∧
          mr.dangling = some false) ∧
        (∃ mr, lookupModel exGraphRootsSeeded "sentry.user" = some mr ∧
          mr.dangling = some false)) :=
  ⟨by decide, rfl, rfl,
    c2_roots_non_dangling relocationRootModels exGraphRoots "sentry.user"
      exGraphRootsSeeded exGraphRootsSeeded (by decide) rfl rfl⟩

/-! The invariant used for the vacuous-dangling claim: a node with only
nullable outgoing edges is never marked `some false` by any resolution
step, because the only `False` write a resolution performs targets the
node whose non-nullable edge just resolved non-dangling. -/

def NodeKeeps (n : String) (fks : List ForeignField) (g : Graph) : Prop :=
  ∃ mr, lookupModel g n = some mr ∧ mr.foreign_keys = fks ∧ mr.dangling ≠ some false

theorem loopFks_nodeKeeps {n : String} {fks : List ForeignField}
    (resolve : String → Graph → Except String (Bool × Graph)) (name : String)
    (hres : ∀ m g b g', resolve m g = .ok (b, g') →
      NodeKeeps n fks g → NodeKeeps n fks g') :
    ∀ l g b g', (name = n → ∀ ff ∈ l, ff.nullable = true) →
      loopFks resolve name l g = .ok (b, g') → NodeKeeps n fks g →
        NodeKeeps n fks g' := by
  intro l
  induction l with
  | nil =>
    intro g b g' _ h hk
    rw [readBack_ok_graph h]
    exact hk
  | cons ff rest ih =>
    intro g b g' hl h hk
    unfold loopFks at h
    split at h
    · exact ih g b g' (fun he f hf => hl he f (List.mem_cons_of_mem _ hf)) h hk
    · next hnul =>
      split at h
      · cases h
      · next bb g1 heq =>
        have hk1 := hres _ _ _ _ heq hk
        split at h
        · exact ih g1 b g' (fun he f hf => hl he f (List.mem_cons_of_mem _ hf)) h hk1
        · have hne : n ≠ name := by
            intro he
            exact hnul (hl he.symm ff (List.mem_cons_self _ _))
          rw [readBack_ok_graph h]
          rcases hk1 with ⟨mr, hlk, hfk, hd⟩
          exact ⟨mr, by rw [lookupModel_setDangling_other _ hne]; exact hlk, hfk, hd⟩

theorem resolveDangling_nodeKeeps {n : String} {fks : List ForeignField}
    (hnull : ∀ ff ∈ fks, ff.nullable = true) :
    ∀ fuel seen m g b g', resolveDangling fuel seen m g = .ok (b, g') →
      NodeKeeps n fks g → NodeKeeps n fks g' := by
  intro fuel
  induction fuel with
  | zero => intro seen m g b g' h _; cases h
  | succ fuel ih =>
    intro seen m g b g' h hk
    unfold resolveDangling at h
    split at h
    · cases h
    · next mr hlk =>
      split at h
      · cases h
      · split at h
        · cases h
          exact hk
        · have hk1 : NodeKeeps n fks (setDangling g m (some true)) := by
            rcases hk with ⟨mrk, hlk2, hfk, hdk⟩
            by_cases hm : n = m
            · subst hm
              have hmm : mrk = mr := by
                rw [hlk2] at hlk
                exact Option.some.inj hlk
              subst hmm
              exact ⟨{ mrk with dangling := some true },
                lookupModel_setDangling_self _ hlk2, hfk, by simp⟩
            · exact ⟨mrk, by rw [lookupModel_setDangling_other _ hm]; exact hlk2,
                hfk, hdk⟩
          refine loopFks_nodeKeeps _ m
            (fun m' g0 b0 g0' hh hk0 => ih (m :: seen) m' g0 b0 g0' hh hk0)
            _ _ _ _ ?_ h hk1
          intro he f hf
          rcases hk with ⟨mrk, hlk2, hfk, hdk⟩
          rw [he] at hlk
          have hmm : mrk = mr := by
            rw [hlk2] at hlk
            exact Option.some.inj hlk
          rw [← hmm, hfk] at hf
          exact hnull f hf

theorem loopFks_allNullable
    (resolve : String → Graph → Except String (Bool × Graph)) (name : String) :
    ∀ (l : List ForeignField) (g : Graph), (∀ ff ∈ l, ff.nullable = true) →
      loopFks resolve name l g = readBack name g := by
  intro l
  induction l with
  | nil => intro g _; rfl
  | cons ff rest ih =>
    intro g hnull
    unfold loopFks
    rw [if_pos (hnull ff (List.mem_cons_self _ _))]
    exact ih g (fun f hf => hnull f (List.mem_cons_of_mem _ hf))

theorem resolveDangling_visit {n : String} {fks : List ForeignField}
    (hnull : ∀ ff ∈ fks, ff.nullable = true) :
    ∀ fuel (g : Graph) (b : Bool) (g2 : Graph),
      resolveDangling fuel [] n g = .ok (b, g2) → NodeKeeps n fks g →
      ∃ mr2, lookupModel g2 n = some mr2 ∧ mr2.dangling = some true := by
  intro fuel
  cases fuel with
  | zero => intro g b g2 h _; cases h
  | succ fuel =>
    intro g b g2 h hk
    rcases hk with ⟨mr, hlk, hfk, hd⟩
    unfold resolveDangling at h
    rw [hlk] at h
    dsimp only at h
    rw [if_neg (List.not_mem_nil n)] at h
    cases hdc : mr.dangling with
    | some bb =>
      rw [hdc] at h
      dsimp only at h
      cases h
      cases b with
      | false => exact absurd hdc hd
      | true => exact ⟨mr, hlk, hdc⟩
    | none =>
      rw [hdc] at h
      dsimp only at h
      rw [loopFks_allNullable _ _ _ _ (fun f hf => hnull f (hfk ▸ hf))] at h
      have hself := lookupModel_setDangling_self (some true) hlk
      rw [readBack_eval hself rfl] at h
      cases h
      exact ⟨{ mr with dangling := some true }, hself, rfl⟩

theorem resolveAll_visits {n : String} {fks : List ForeignField}
    (hnull : ∀ ff ∈ fks, ff.nullable = true) (fuel : Nat) (roots : List String) :
    ∀ names (g g' : Graph), n ∈ names → n ∉ roots → NodeKeeps n fks g →
      resolveAll fuel roots names g = .ok g' →
      ∃ mr', lookupModel g' n = some mr' ∧ mr'.dangling = some true := by
  intro names
  induction names with
  | nil => intro g g' hmem _ _ _; cases hmem
  | cons h0 rest ih =>
    intro g g' hmem hnr hk h
    unfold resolveAll at h
    split at h
    · next hroot =>
      have hne : n ≠ h0 := fun he => hnr (he ▸ hroot)
      rcases List.mem_cons.mp hmem with he | hmem'
      · exact absurd he hne
      · exact ih g g' hmem' hnr hk h
    · split at h
      · cases h
      · next bb g1 heq =>
        by_cases he : h0 = n
        · subst he
          rcases resolveDangling_visit hnull _ _ _ _ heq hk with ⟨mr2, hl2, hd2⟩
          have hp := resolveAll_pres fuel roots rest g1 g' h
          exact ⟨mr2, hp h0 mr2 hl2 (by rw [hd2]; simp), hd2⟩
        · have hk1 := resolveDangling_nodeKeeps hnull _ _ _ _ _ _ heq hk
          rcases List.mem_cons.mp hmem with he2 | hmem'
          · exact absurd he2.symm he
          · exact ih g1 g' hmem' hnr hk1 h

/-- C6: a model that is not a root and whose outgoing edges are all
nullable (in particular one with zero non-nullable edges) is classified
dangling by the classifier. -/
theorem c6_vacuous_dangling (roots : List String) (g : Graph) (n : String)
    (mr : ModelRelations) (g' : Graph) (hlk : lookupModel g n = some mr)
    (hnone : mr.dangling = none) (hnull : ∀ ff ∈ mr.foreign_keys, ff.nullable = true)
    (hroot : n ∉ roots) (hrun : runDangling roots g = .ok g') :
    ∃ mr', lookupModel g' n = some mr' ∧ mr'.dangling = some true := by
  unfold runDangling at hrun
  cases hseed : seedRoots roots g with
  | error e => rw [hseed] at hrun; cases hrun
  | ok g1 =>
    rw [hseed] at hrun
    dsimp only at hrun
    have hl1 : lookupModel g1 n = some mr := by
      rw [seedRoots_other roots g g1 hseed hroot]
      exact hlk
    have hmem : n ∈ g1.map (fun mr => mr.model) :=
      List.mem_map.mpr ⟨mr, mem_of_lookupModel hl1, lookupModel_model hl1⟩
    exact resolveAll_visits hnull _ roots _ g1 g' hmem hroot
      ⟨mr, hl1, rfl, by rw [hnone]; simp⟩ hrun

theorem c6_vacuous_dangling_witness :
    (lookupModel exGraphWebhook "sentry.webhook" =
        some ⟨none, [⟨"sentry.project", .FlexibleForeignKey, true⟩], "sentry.webhook"⟩) ∧
      (runDangling ["sentry.organization"] exGraphWebhook =
        .ok [⟨some false, [], "sentry.organization"⟩,
             ⟨some true, [⟨"sentry.project", .FlexibleForeignKey, true⟩],
               "sentry.webhook"⟩]) ∧
      (∃ mr', lookupModel
          [⟨some false, [], "sentry.organization"⟩,
           (⟨some true, [⟨"sentry.project", .FlexibleForeignKey, true⟩],
             "sentry.webhook"⟩ : ModelRelations)] "sentry.webhook" = some mr' ∧
        mr'.dangling = some true) :=
  ⟨rfl, rfl,
    c6_vacuous_dangling ["sentry.organization"] exGraphWebhook "sentry.webhook"
      ⟨none, [⟨"sentry.project", .FlexibleForeignKey, true⟩], "sentry.webhook"⟩ _
      rfl rfl (by decide) (by decide) rfl⟩

/-! Lemmas about a single pass of the topological sorter. -/

theorem topoReady_iff {ms out : List String} {md : ModelRelations} :
    topoReady ms out md = true ↔
      ∀ ff ∈ md.foreign_keys, ff.model ∈ ms → ff.model ∈ out := by
  unfold topoReady
  rw [List.all_eq_true]
  constructor
  · intro h ff hff hms
    have h2 := h ff hff
    rw [decide_eq_true_eq] at h2
    tauto
  · intro h ff hff
    rw [decide_eq_true_eq]
    by_cases hms : ff.model ∈ ms
    · exact Or.inr (h ff hff hms)
    · exact Or.inl hms

theorem topoPass_changed_true (ms : List String) :
    ∀ (l : List ModelRelations) (out : List String) (sk : List ModelRelations),
      (topoPass ms l out sk true).2.2 = true := by
  intro l
  induction l with
  | nil => intro out sk; rfl
  | cons md rest ih =>
    intro out sk
    unfold topoPass
    by_cases hr : topoReady ms out md = true
    · rw [if_pos hr]; exact ih _ _
    · rw [if_neg hr]; exact ih _ _

theorem topoPass_unchanged (ms : List String) :
    ∀ (l : List ModelRelations) (out : List String) (sk : List ModelRelations),
      (topoPass ms l out sk false).2.2 = false →
      topoPass ms l out sk false = (out, sk ++ l, false) := by
  intro l
  induction l with
  | nil => intro out sk _; simp [topoPass]
  | cons md rest ih =>
    intro out sk h
    unfold topoPass at h ⊢
    by_cases hr : topoReady ms out md = true
    · rw [if_pos hr] at h
      rw [topoPass_changed_true] at h
      cases h
    · rw [if_neg hr] at h ⊢
      rw [ih _ _ h]
      simp

theorem topoPass_perm (ms : List String) :
    ∀ (l : List ModelRelations) (out : List String) (sk : List ModelRelations)
      (ch : Bool),
      ((topoPass ms l out sk ch).1 ++
          (topoPass ms l out sk ch).2.1.map (fun mr => mr.model)).Perm
        ((out ++ sk.map (fun mr => mr.model)) ++ l.map (fun mr => mr.model)) := by
  intro l
  induction l with
  | nil => intro out sk ch; simp [topoPass]
  | cons md rest ih =>
    intro out sk ch
    unfold topoPass
    by_cases hr : topoReady ms out md = true
    · rw [if_pos hr]
      refine (ih _ _ _).trans ?_
      simp only [List.map_cons, List.append_assoc, List.cons_append, List.nil_append]
      exact List.Perm.append_left out List.perm_middle.symm
    · rw [if_neg hr]
      refine (ih _ _ _).trans ?_
      simp only [List.map_append, List.map_cons, List.map_nil, List.append_assoc,
        List.cons_append, List.nil_append]
      exact List.Perm.refl _

theorem topoPass_sub {G : Graph} (ms : List String) :
    ∀ (l : List ModelRelations) (out : List String) (sk : List ModelRelations)
      (ch : Bool), (∀ md ∈ l, md ∈ G) → (∀ md ∈ sk, md ∈ G) →
      ∀ md ∈ (topoPass ms l out sk ch).2.1, md ∈ G := by
  intro l
  induction l with
  | nil => intro out sk ch _ hsk; exact hsk
  | cons md rest ih =>
    intro out sk ch hl hsk
    unfold topoPass
    by_cases hr : topoReady ms out md = true
    · rw [if_pos hr]
      exact ih _ _ _ (fun x hx => hl x (List.mem_cons_of_mem _ hx)) hsk
    · rw [if_neg hr]
      refine ih _ _ _ (fun x hx => hl x (List.mem_cons_of_mem _ hx)) ?_
      intro x hx
      rcases List.mem_append.mp hx with hx | hx
      · exact hsk x hx
      · rw [List.mem_singleton.mp hx]
        exact hl md (List.mem_cons_self _ _)

theorem topoPass_sk_mono (ms : List String) :
    ∀ (l : List ModelRelations) (out : List String) (sk : List ModelRelations)
      (ch : Bool) (x : ModelRelations), x ∈ sk → x ∈ (topoPass ms l out sk ch).2.1 := by
  intro l
  induction l with
  | nil => intro out sk ch x hx; exact hx
  | cons md rest ih =>
    intro out sk ch x hx
    unfold topoPass
    by_cases hr : topoReady ms out md = true
    · rw [if_pos hr]; exact ih _ _ _ _ hx
    · rw [if_neg hr]
      exact ih _ _ _ _ (List.mem_append.mpr (Or.inl hx))

/-- The `GoodOut` invariant of the sorter: every model already in the
output was promoted only after all of its in-universe dependency
targets. -/
def GoodOut (G : Graph) (out : List String) : Prop :=
  ∀ mr, mr ∈ G → ∀ i, (hi : i < out.length) → out[i] = mr.model →
    ∀ ff, ff ∈ mr.foreign_keys → ff.model ∈ G.map (fun mr => mr.model) →
      ff.model ∈ out.take i

theorem goodOut_nil (G : Graph) : GoodOut G [] := by
  intro mr _ i hi
  simp at hi

theorem goodOut_append {G : Graph} (HN : (G.map (fun mr => mr.model)).Nodup)
    {out : List String} {md : ModelRelations} (hmd : md ∈ G)
    (hready : ∀ ff ∈ md.foreign_keys,
      ff.model ∈ G.map (fun mr => mr.model) → ff.model ∈ out)
    (hg : GoodOut G out) : GoodOut G (out ++ [md.model]) := by
  intro mr hmr i hi hget ff hff hffm
  have hi2 : i < out.length + 1 := by
    simpa using hi
  rcases Nat.lt_succ_iff_lt_or_eq.mp hi2 with hlt | heq
  · rw [List.getElem_append_left hlt] at hget
    have htk := hg mr hmr i hlt hget ff hff hffm
    rw [List.take_append_eq_append_take, Nat.sub_eq_zero_of_le (Nat.le_of_lt hlt)]
    simp only [List.take_zero, List.append_nil]
    exact htk
  · subst heq
    have hx : (out ++ [md.model])[out.length] = md.model := by
      rw [List.getElem_append_right (Nat.le_refl _)]
      simp
    have hmm : mr = md :=
      List.inj_on_of_nodup_map HN hmr hmd (by rw [← hget, hx])
    subst hmm
    rw [List.take_left]
    exact hready ff hff hffm

theorem topoPass_good {G : Graph} (HN : (G.map (fun mr => mr.model)).Nodup) :
    ∀ (l : List ModelRelations) (out : List String) (sk : List ModelRelations)
      (ch : Bool), GoodOut G out → (∀ md ∈ l, md ∈ G) →
      GoodOut G (topoPass (G.map (fun mr => mr.model)) l out sk ch).1 := by
  intro l
  induction l with
  | nil => intro out sk ch hg _; exact hg
  | cons md rest ih =>
    intro out sk ch hg hl
    unfold topoPass
    by_cases hr : topoReady (G.map (fun mr => mr.model)) out md = true
    · rw [if_pos hr]
      exact ih _ _ _
        (goodOut_append HN (hl md (List.mem_cons_self _ _)) (topoReady_iff.mp hr) hg)
        (fun x hx => hl x (List.mem_cons_of_mem _ hx))
    · rw [if_neg hr]
      exact ih _ _ _ hg (fun x hx => hl x (List.mem_cons_of_mem _ hx))

theorem topoPass_out_extend (ms : List String) :
    ∀ (l : List ModelRelations) (out : List String) (sk : List ModelRelations)
      (ch : Bool),
      ∃ p, (topoPass ms l out sk ch).1 = out ++ p ∧
        p.Sublist (l.map (fun mr => mr.model)) := by
  intro l
  induction l with
  | nil => intro out sk ch; exact ⟨[], by simp [topoPass], List.nil_sublist _⟩
  | cons md rest ih =>
    intro out sk ch
    unfold topoPass
    by_cases hr : topoReady ms out md = true
    · rw [if_pos hr]
      rcases ih (out ++ [md.model]) sk true with ⟨p, hp, hs⟩
      exact ⟨md.model :: p, by rw [hp]; simp, List.Sublist.cons₂ _ hs⟩
    · rw [if_neg hr]
      rcases ih out (sk ++ [md]) ch with ⟨p, hp, hs⟩
      exact ⟨p, hp, hs.cons _⟩

theorem topoPass_self_stuck (ms : List String) {mr : ModelRelations}
    {ff : ForeignField} (hff : ff ∈ mr.foreign_keys) (hself : ff.model = mr.model)
    (hms : mr.model ∈ ms) :
    ∀ (l : List ModelRelations) (out : List String) (sk : List ModelRelations)
      (ch : Bool), mr ∈ l → (out ++ l.map (fun mr => mr.model)).Nodup →
      mr ∈ (topoPass ms l out sk ch).2.1 := by
  intro l
  induction l with
  | nil => intro out sk ch hmem _; cases hmem
  | cons md rest ih =>
    intro out sk ch hmem hnd
    unfold topoPass
    by_cases hr : topoReady ms out md = true
    · rw [if_pos hr]
      rcases List.mem_cons.mp hmem with he | hmem'
      · subst he
        have hmo : mr.model ∈ out := by
          have h2 := topoReady_iff.mp hr ff hff
          rw [hself] at h2
          exact h2 hms
        have hdisj := List.disjoint_of_nodup_append hnd
        exact absurd (hdisj hmo (by simp)) (by simp)
      · refine ih _ _ _ hmem' ?_
        have heq2 : (out ++ [md.model]) ++ rest.map (fun mr => mr.model) =
            out ++ (md :: rest).map (fun mr => mr.model) := by
          simp
        rw [heq2]
        exact hnd
    · rw [if_neg hr]
      rcases List.mem_cons.mp hmem with he | hmem'
      · subst he
        exact topoPass_sk_mono ms rest out _ ch mr (List.mem_append.mpr (Or.inr (by simp)))
      · refine ih _ _ _ hmem' ?_
        refine List.Nodup.sublist ?_ hnd
        refine List.Sublist.append_left ?_ out
        simp only [List.map_cons]
        exact List.sublist_cons_self _ _

/-! The outer loop of the sorter. -/

theorem sortLoop_master {G : Graph} (HN : (G.map (fun mr => mr.model)).Nodup) :
    ∀ (fuel : Nat) (working : List ModelRelations) (out : List String),
      GoodOut G out → (∀ md ∈ working, md ∈ G) →
      ((out ++ working.map (fun mr => mr.model)).Perm (G.map (fun mr => mr.model))) →
      ∀ l, sortLoop (G.map (fun mr => mr.model)) fuel working out = .ok l →
        l.Perm (G.map (fun mr => mr.model)) ∧ GoodOut G l := by
  intro fuel
  induction fuel with
  | zero => intro working out _ _ _ l h; cases h
  | succ fuel ih =>
    intro working out hg hsub hperm l h
    cases working with
    | nil =>
      unfold sortLoop at h
      cases h
      refine ⟨?_, hg⟩
      simpa using hperm
    | cons md wrest =>
      unfold sortLoop at h
      dsimp only at h
      by_cases hch :
          (topoPass (G.map (fun mr => mr.model)) (md :: wrest).reverse out [] false).2.2
            = true
      · rw [if_pos hch] at h
        have hrevperm :
            ((md :: wrest).reverse.map (fun mr => mr.model)).Perm
              ((md :: wrest).map (fun mr => mr.model)) := by
          rw [List.map_reverse]
          exact List.reverse_perm _
        refine ih _ _ ?_ ?_ ?_ l h
        · exact topoPass_good HN _ _ _ _ hg
            (fun x hx => hsub x (List.mem_reverse.mp hx))
        · exact topoPass_sub _ _ _ _ _
            (fun x hx => hsub x (List.mem_reverse.mp hx)) (fun x hx => by cases hx)
        · refine (topoPass_perm _ _ _ _ _).trans ?_
          refine List.Perm.trans ?_ hperm
          simp only [List.map_nil, List.append_nil]
          exact List.Perm.append_left out hrevperm
      · rw [if_neg hch] at h
        cases h

theorem mem_take_indexOf {l : List String} :
    ∀ {i : Nat} {b : String}, b ∈ l.take i → l.indexOf b < i := by
  induction l with
  | nil => intro i b h; simp at h
  | cons a l' ih =>
    intro i b h
    cases i with
    | zero => simp at h
    | succ i' =>
      rw [List.take_succ_cons] at h
      by_cases hab : a = b
      · rw [List.indexOf_cons_eq _ hab]
        simp
      · rcases List.mem_cons.mp h with he | hm
        · exact absurd he.symm hab
        · rw [List.indexOf_cons_ne _ hab]
          exact Nat.succ_lt_succ (ih hm)

/-- C1: a successful topological sort is a permutation of the graph's
models — every non-excluded entity type appears exactly once — and for
every edge A -> B whose target is inside the sorted universe, B is
placed strictly before A. -/
theorem c1_topo_valid (g : Graph) (HN : (g.map (fun mr => mr.model)).Nodup)
    (l : List String) (h : sortedDependencies g = .ok l) :
    l.Perm (g.map (fun mr => mr.model)) ∧
      ∀ mr ∈ g, ∀ ff ∈ mr.foreign_keys, ff.model ∈ l →
        l.indexOf ff.model < l.indexOf mr.model := by
  unfold sortedDependencies at h
  have hmaster := sortLoop_master HN (g.length + 1) g.reverse []
    (goodOut_nil g) (fun md hmd => List.mem_reverse.mp hmd)
    (by
      simp only [List.nil_append]
      rw [List.map_reverse]
      exact List.reverse_perm _) l h
  refine ⟨hmaster.1, ?_⟩
  intro mr hmr ff hff hffl
  have hml : mr.model ∈ l :=
    hmaster.1.mem_iff.mpr (List.mem_map.mpr ⟨mr, hmr, rfl⟩)
  have hi : l.indexOf mr.model < l.length := List.indexOf_lt_length.mpr hml
  have hgeti : l[l.indexOf mr.model] = mr.model := List.getElem_indexOf hi
  have hffMS : ff.model ∈ g.map (fun mr => mr.model) := hmaster.1.mem_iff.mp hffl
  exact mem_take_indexOf (hmaster.2 mr hmr _ hi hgeti ff hff hffMS)

theorem c1_topo_valid_witness :
    ((exGraphTeamOrg.map (fun mr => mr.model)).Nodup ∧
        sortedDependencies exGraphTeamOrg = .ok ["sentry.organization", "sentry.team"]) ∧
      (["sentry.organization", "sentry.team"].Perm
          (exGraphTeamOrg.map (fun mr => mr.model)) ∧
        ∀ mr ∈ exGraphTeamOrg, ∀ ff ∈ mr.foreign_keys,
          ff.model ∈ ["sentry.organization", "sentry.team"] →
            ["sentry.organization", "sentry.team"].indexOf ff.model <
              ["sentry.organization", "sentry.team"].indexOf mr.model) :=
  ⟨⟨by decide, rfl⟩, c1_topo_valid exGraphTeamOrg (by decide) _ rfl⟩

/-- C4: when a full pass over the (non-empty) remaining working list
promotes nothing, the sorter fails with the cycle error, and the names
it prints are exactly the remaining models, sorted ascending. -/
theorem c4_stuck_error (ms : List String) (fuel : Nat)
    (working : List ModelRelations) (out : List String) (hne : working ≠ [])
    (hch : (topoPass ms working.reverse out [] false).2.2 = false) :
    ∃ names, sortLoop ms (fuel + 1) working out = .error (topoErrMsg names) ∧
      names.Perm (working.map (fun mr => mr.model)) ∧
      names.Sorted (fun a b : String => a ≤ b) := by
  cases working with
  | nil => exact absurd rfl hne
  | cons md wrest =>
    refine ⟨(sortSkipped (topoPass ms (md :: wrest).reverse out [] false).2.1).map
      (fun mr => mr.model), ?_, ?_, ?_⟩
    · unfold sortLoop
      dsimp only
      rw [if_neg (by rw [hch]; exact Bool.false_ne_true)]
      rfl
    · rw [topoPass_unchanged ms _ _ _ hch]
      simp only [List.nil_append]
      refine (List.Perm.map _ (List.perm_insertionSort _ _)).trans ?_
      rw [List.map_reverse]
      exact List.reverse_perm _
    · have hs := List.sorted_insertionSort
        (fun a b : ModelRelations => a.model.data ≤ b.model.data)
        (topoPass ms (md :: wrest).reverse out [] false).2.1
      unfold sortSkipped
      refine List.Pairwise.map _ ?_ hs
      intro a b hab
      exact String.le_iff_toList_le.mpr hab

theorem c4_stuck_error_witness :
    (exGraphPQ ≠ [] ∧
        (topoPass (exGraphPQ.map (fun mr => mr.model)) exGraphPQ.reverse [] []
          false).2.2 = false) ∧
      ∃ names,
        sortLoop (exGraphPQ.map (fun mr => mr.model)) 3 exGraphPQ [] =
            .error (topoErrMsg names) ∧
          names.Perm (exGraphPQ.map (fun mr => mr.model)) ∧
          names.Sorted (fun a b : String => a ≤ b) :=
  ⟨⟨by decide, rfl⟩,
    c4_stuck_error (exGraphPQ.map (fun mr : ModelRelations => mr.model)) 2 exGraphPQ []
      (by decide) rfl⟩

/-- C7 (amended): within a single pass, the models promoted together
are appended in the order in which the pass processes the working list
(the original registration order on the first pass), not sorted by
name: the promoted block is a subsequence of the processing order. -/
theorem c7_promotion_processing_order (ms : List String) (l : List ModelRelations)
    (out : List String) (sk : List ModelRelations) (ch : Bool) :
    ∃ p, (topoPass ms l out sk ch).1 = out ++ p ∧
      p.Sublist (l.map (fun mr => mr.model)) :=
  topoPass_out_extend ms l out sk ch

/-- C7 (counterexample): two independent models registered in the order
b, a are both promoted in the very first pass, and they come out in
registration order b, a — not ascending name order. -/
theorem c7_counterexample :
    sortedDependencies exGraphBA = .ok ["sentry.b", "sentry.a"] ∧
      topoPass (exGraphBA.map (fun mr => mr.model)) exGraphBA [] [] false =
        (["sentry.b", "sentry.a"], [], true) ∧
      ¬ (["sentry.b", "sentry.a"].Sorted (fun a b : String => a ≤ b)) := by
  refine ⟨rfl, rfl, ?_⟩
  intro hs
  have h1 : ("sentry.b" : String) ≤ "sentry.a" :=
    (List.sorted_cons.mp hs).1 _ (List.mem_singleton_self _)
  rw [String.le_iff_toList_le] at h1
  exact absurd h1 (by decide)

theorem sortLoop_self_stuck (ms : List String) {mr : ModelRelations}
    {ff : ForeignField} (hff : ff ∈ mr.foreign_keys) (hself : ff.model = mr.model)
    (hms : mr.model ∈ ms) :
    ∀ (fuel : Nat) (working : List ModelRelations) (out : List String),
      mr ∈ working → (out ++ working.map (fun mr => mr.model)).Nodup →
      ∀ l, sortLoop ms fuel working out ≠ .ok l := by
  intro fuel
  induction fuel with
  | zero => intro working out _ _ l h; cases h
  | succ fuel ih =>
    intro working out hmem hnd l h
    cases working with
    | nil => cases hmem
    | cons md wrest =>
      unfold sortLoop at h
      dsimp only at h
      by_cases hch : (topoPass ms (md :: wrest).reverse out [] false).2.2 = true
      · rw [if_pos hch] at h
        have hndrev : (out ++ (md :: wrest).reverse.map (fun mr => mr.model)).Nodup := by
          refine List.Perm.nodup ?_ hnd
          refine List.Perm.append_left out ?_
          rw [List.map_reverse]
          exact (List.reverse_perm _).symm
        refine ih _ _ ?_ ?_ l h
        · exact topoPass_self_stuck ms hff hself hms _ _ _ _
            (List.mem_reverse.mpr hmem) hndrev
        · refine List.Perm.nodup ?_ hndrev
          refine List.Perm.symm ?_
          refine (topoPass_perm ms _ _ _ _).trans ?_
          simp only [List.map_nil, List.append_nil]
          exact List.Perm.refl _
      · rw [if_neg hch] at h
        cases h

/-- C8 (amended): a self-edge retained in a node's edge list is not
ignored by the analyses: the topological sorter can never promote the
node, so the sort never succeeds; and the dangling classifier, upon
iterating a non-nullable self-edge of the in-progress node, raises the
circular-dependency error. -/
theorem c8_self_edges_not_ignored :
    (∀ (g : Graph) (mr : ModelRelations) (ff : ForeignField),
      (g.map (fun mr => mr.model)).Nodup → mr ∈ g → ff ∈ mr.foreign_keys →
      ff.model = mr.model → ∀ l, sortedDependencies g ≠ .ok l) ∧
      (∀ (fuel : Nat) (seen : List String) (name : String) (g : Graph)
        (mr : ModelRelations) (ff : ForeignField) (rest : List ForeignField),
        lookupModel g name = some mr → ff.nullable = false → ff.model = name →
        loopFks (resolveDangling (fuel + 1) (name :: seen)) name (ff :: rest) g =
          .error (cycleErrMsg name)) := by
  constructor
  · intro g mr ff HN hmr hff hself l
    unfold sortedDependencies
    refine sortLoop_self_stuck _ hff hself ?_ _ _ _ (List.mem_reverse.mpr hmr) ?_ l
    · exact List.mem_map.mpr ⟨mr, hmr, rfl⟩
    · simp only [List.nil_append]
      rw [List.map_reverse]
      exact List.Perm.nodup (List.reverse_perm _).symm HN
  · intro fuel seen name g mr ff rest hlk hnul hself
    unfold loopFks
    rw [if_neg (by rw [hnul]; exact Bool.false_ne_true)]
    rw [hself]
    unfold resolveDangling
    rw [hlk]
    simp [List.mem_cons]

theorem c8_self_edges_not_ignored_witness :
    ((exGraphSelf.map (fun mr => mr.model)).Nodup ∧
        (⟨none, [⟨"sentry.x", .ImplicitForeignKey, false⟩], "sentry.x"⟩ :
            ModelRelations) ∈ exGraphSelf ∧
        sortedDependencies exGraphSelf ≠ .ok ["sentry.x"]) ∧
      loopFks (resolveDangling 4 ["sentry.x"]) "sentry.x"
          [⟨"sentry.x", .ImplicitForeignKey, false⟩]
          (setDangling exGraphSelf "sentry.x" (some true)) =
        .error (cycleErrMsg "sentry.x") :=
  ⟨⟨by decide, by decide,
      c8_self_edges_not_ignored.1 exGraphSelf
        ⟨none, [⟨"sentry.x", .ImplicitForeignKey, false⟩], "sentry.x"⟩
        ⟨"sentry.x", .ImplicitForeignKey, false⟩ (by decide) (by decide) (by decide)
        rfl ["sentry.x"]⟩,
    c8_self_edges_not_ignored.2 3 [] "sentry.x"
      (setDangling exGraphSelf "sentry.x" (some true))
      ⟨some true, [⟨"sentry.x", .ImplicitForeignKey, false⟩], "sentry.x"⟩
      ⟨"sentry.x", .ImplicitForeignKey, false⟩ [] rfl rfl rfl⟩

/-- C8 (counterexample): adding a retained non-nullable self-edge to an
otherwise classifiable and sortable model turns the dangling
classification into a cycle error and the topological sort into a cycle
error, so self-edges are not ignored by either analysis. -/
theorem c8_counterexample :
    runDangling [] exGraphNoSelf = .ok [⟨some true, [], "sentry.x"⟩] ∧
      runDangling [] exGraphSelf = .error (cycleErrMsg "sentry.x") ∧
      sortedDependencies exGraphNoSelf = .ok ["sentry.x"] ∧
      sortedDependencies exGraphSelf = .error (topoErrMsg ["sentry.x"]) :=
  ⟨rfl, rfl, rfl, rfl⟩

end SentryDeps
